import Mathlib

/-!
Verification of the slice-argument accessor macros in
`internal/simd/helpers_amd64.h`.

The header defines three textual assembly macros for amd64 Go assembly:

  slice_addr(NAME, OFFSET, REGISTER) = MOVQ NAME+OFFSET(FP), REGISTER
  slice_len(NAME, OFFSET, REGISTER)  = MOVQ NAME+(8+OFFSET)(FP), REGISTER
  slice_size(NAME, OFFSET, ELEMENT_SIZE, REGISTER) =
      slice_len(NAME, OFFSET, AX)
      MOVQ ELEMENT_SIZE, REGISTER
      MULQ               REGISTER
      MOVQ AX,           REGISTER

We shallow-embed the fragment of amd64 these expansions use: 64-bit
general-purpose registers, a frame-pointer-relative argument area modelled
as a map from byte offsets to quadwords, the MOVQ instruction (immediate,
register or memory source; register destination, the only form used here),
and the one-operand unsigned MULQ, which multiplies AX by its operand and
leaves the low quadword of the product in AX and the high quadword in DX.
All register writes are truncated modulo 2^64.  A macro expansion is a pure
function from its textual arguments to a list of instructions; the symbolic
NAME argument resolves to a base byte offset in the argument area, so it is
modelled as that offset.
-/

/-- Registers named by the macros and their surrounding routines.  AX and DX
are the implicit pair of MULQ; the others stand for arbitrary distinct
general-purpose destinations. -/
inductive Reg
  | AX | BX | CX | DX | SI | DI
  deriving DecidableEq, Repr

/-- Source operand of MOVQ: an immediate constant, a register, or an
FP-relative quadword at a byte offset (the resolved form of
`NAME+OFFSET(FP)`). -/
inductive Operand
  | imm (v : Nat)
  | reg (r : Reg)
  | memFP (off : Nat)
  deriving DecidableEq, Repr

/-- The two instruction forms the macros emit: `MOVQ src, dst` with a
register destination, and the one-operand unsigned multiply `MULQ r`. -/
inductive Instr
  | movq (src : Operand) (dst : Reg)
  | mulq (src : Reg)
  deriving DecidableEq, Repr

/-- Machine state: register file and the FP-relative argument area, the
latter as a map from byte offset to the quadword stored there. -/
structure Machine where
  regs : Reg → Nat
  mem : Nat → Nat

/-- Value read by a MOVQ source operand. -/
def evalOperand (m : Machine) : Operand → Nat
  | .imm v => v
  | .reg r => m.regs r
  | .memFP a => m.mem a

/-- Write a 64-bit register, truncating the value to a quadword. -/
def writeReg (m : Machine) (dst : Reg) (v : Nat) : Machine :=
  { m with regs := fun r => if r = dst then v % 2 ^ 64 else m.regs r }

/-- One instruction step.  MOVQ writes its destination register; MULQ
computes AX * src and leaves the low quadword in AX and the high quadword
in DX.  Neither instruction writes memory. -/
def step (m : Machine) : Instr → Machine
  | .movq src dst => writeReg m dst (evalOperand m src)
  | .mulq src =>
      let p := m.regs Reg.AX * m.regs src
      { m with regs := fun r =>
          if r = Reg.AX then p % 2 ^ 64
          else if r = Reg.DX then p / 2 ^ 64 % 2 ^ 64
          else m.regs r }

/-- Execute a straight-line instruction sequence. -/
def run (m : Machine) (is : List Instr) : Machine :=
  is.foldl step m

/-- Expansion of `slice_addr(NAME, OFFSET, REGISTER)`:
`MOVQ NAME+OFFSET(FP), REGISTER`. -/
def slice_addr (name offset : Nat) (register : Reg) : List Instr :=
  [Instr.movq (Operand.memFP (name + offset)) register]

/-- Expansion of `slice_len(NAME, OFFSET, REGISTER)`:
`MOVQ NAME+(8+OFFSET)(FP), REGISTER`. -/
def slice_len (name offset : Nat) (register : Reg) : List Instr :=
  [Instr.movq (Operand.memFP (name + (8 + offset))) register]

/-- Expansion of `slice_size(NAME, OFFSET, ELEMENT_SIZE, REGISTER)`: the
`slice_len` expansion targeting AX, then
`MOVQ ELEMENT_SIZE, REGISTER; MULQ REGISTER; MOVQ AX, REGISTER`. -/
def slice_size (name offset : Nat) (element_size : Operand)
    (register : Reg) : List Instr :=
  slice_len name offset Reg.AX ++
    [Instr.movq element_size register,
     Instr.mulq register,
     Instr.movq (Operand.reg Reg.AX) register]

/-- FP-relative byte offsets an instruction loads from. -/
def Instr.loadsFrom : Instr → List Nat
  | .movq (Operand.memFP a) _ => [a]
  | _ => []

/-- FP-relative byte offsets a sequence loads from, in order. -/
def loadsFrom (is : List Instr) : List Nat :=
  (is.map Instr.loadsFrom).flatten

/-- Memory is never written: running any instruction sequence leaves the
argument area untouched. -/
theorem run_mem (is : List Instr) : ∀ m : Machine, (run m is).mem = m.mem := by
  induction is with
  | nil => intro m; rfl
  | cons i is ih =>
      intro m
      have hstep : (step m i).mem = m.mem := by
        cases i with
        | movq src dst => rfl
        | mulq src => rfl
      calc (run m (i :: is)).mem = (run (step m i) is).mem := rfl
        _ = (step m i).mem := ih (step m i)
        _ = m.mem := hstep

/-- The high quadword of a product of two quadwords fits in a quadword. -/
theorem hi_quad_lt (L E : Nat) (hL : L < 2 ^ 64) (hE : E < 2 ^ 64) :
    L * E / 2 ^ 64 < 2 ^ 64 :=
  Nat.div_lt_of_lt_mul (mul_lt_mul'' hL hE (Nat.zero_le _) (Nat.zero_le _))

/-- Register file after running the `slice_size` expansion with an immediate
element size and a destination other than AX: the destination and AX hold the
low quadword of length * element_size, DX holds the high quadword unless DX
is the destination, and every other register keeps its prior value. -/
theorem slice_size_regs (m : Machine) (name offset E L : Nat) (register : Reg)
    (hL : m.mem (name + (8 + offset)) = L) (hL64 : L < 2 ^ 64)
    (hE : E < 2 ^ 64) (hreg : register ≠ Reg.AX) :
    ∀ r : Reg,
      (run m (slice_size name offset (Operand.imm E) register)).regs r =
        if r = register then L * E % 2 ^ 64
        else if r = Reg.AX then L * E % 2 ^ 64
        else if r = Reg.DX then L * E / 2 ^ 64
        else m.regs r := by
  intro r
  have hAXr : Reg.AX ≠ register := Ne.symm hreg
  by_cases h1 : r = register
  · subst h1
    simp [run, slice_size, slice_len, step, writeReg, evalOperand, hreg, hAXr,
      hL, Nat.mod_eq_of_lt hL64, Nat.mod_eq_of_lt hE]
  · by_cases h2 : r = Reg.AX
    · subst h2
      simp [run, slice_size, slice_len, step, writeReg, evalOperand, hreg, hAXr,
        h1, Ne.symm h1, hL, Nat.mod_eq_of_lt hL64, Nat.mod_eq_of_lt hE]
    · by_cases h3 : r = Reg.DX
      · subst h3
        simp [-Nat.reducePow, run, slice_size, slice_len, step, writeReg,
          evalOperand, hreg, hAXr, h1, h2, hL, Nat.mod_eq_of_lt hL64,
          Nat.mod_eq_of_lt hE, Nat.mod_eq_of_lt (hi_quad_lt L E hL64 hE)]
      · simp [run, slice_size, slice_len, step, writeReg, evalOperand, hreg,
          hAXr, h1, h2, h3, hL]

/-- C3: expanding `slice_addr` (load_address) performs exactly one 8-byte
load, from `name + offset` in the FP-relative argument area, leaves exactly
the address A stored there in the destination register, alters no other
register, and has no side effect on memory. -/
theorem slice_addr_correct (m : Machine) (name offset A : Nat) (register : Reg)
    (hA : m.mem (name + offset) = A) (hA64 : A < 2 ^ 64) :
    (run m (slice_addr name offset register)).regs register = A ∧
    (∀ r : Reg, r ≠ register →
      (run m (slice_addr name offset register)).regs r = m.regs r) ∧
    (run m (slice_addr name offset register)).mem = m.mem ∧
    loadsFrom (slice_addr name offset register) = [name + offset] := by
  refine ⟨?_, ?_, run_mem _ m, rfl⟩
  · simp [-Nat.reducePow, run, slice_addr, step, writeReg, evalOperand, hA,
      Nat.mod_eq_of_lt hA64]
  · intro r hr
    simp [run, slice_addr, step, writeReg, evalOperand, hr]

/-- C3 witness: a concrete frame whose address slot at offset 16 holds 42;
`slice_addr` puts 42 into BX. -/
theorem slice_addr_correct_witness :
    (run ⟨fun _ => 0, fun a => if a = 16 then 42 else 0⟩
        (slice_addr 0 16 Reg.BX)).regs Reg.BX = 42 :=
  (slice_addr_correct ⟨fun _ => 0, fun a => if a = 16 then 42 else 0⟩
    0 16 42 Reg.BX (by decide) (by decide)).1

/-- C4: expanding `slice_len` (load_length) loads the 8-byte value at
`name + (8 + offset)` — the slot immediately after the address field — and
leaves exactly the length L stored there in the destination register, with
the same single-load, no-side-effect guarantee as `slice_addr` shifted by 8
bytes. -/
theorem slice_len_correct (m : Machine) (name offset L : Nat) (register : Reg)
    (hL : m.mem (name + (8 + offset)) = L) (hL64 : L < 2 ^ 64) :
    (run m (slice_len name offset register)).regs register = L ∧
    (∀ r : Reg, r ≠ register →
      (run m (slice_len name offset register)).regs r = m.regs r) ∧
    (run m (slice_len name offset register)).mem = m.mem ∧
    loadsFrom (slice_len name offset register) = [name + (8 + offset)] := by
  refine ⟨?_, ?_, run_mem _ m, rfl⟩
  · simp [-Nat.reducePow, run, slice_len, step, writeReg, evalOperand, hL,
      Nat.mod_eq_of_lt hL64]
  · intro r hr
    simp [run, slice_len, step, writeReg, evalOperand, hr]

/-- C4 witness: a concrete frame whose length slot at offset 16 + 8 holds 7;
`slice_len` puts 7 into CX. -/
theorem slice_len_correct_witness :
    (run ⟨fun _ => 0, fun a => if a = 24 then 7 else 0⟩
        (slice_len 0 16 Reg.CX)).regs Reg.CX = 7 :=
  (slice_len_correct ⟨fun _ => 0, fun a => if a = 24 then 7 else 0⟩
    0 16 7 Reg.CX (by decide) (by decide)).1

/-- Whether an operand reads memory when used as a MOVQ source.  The header
allows ELEMENT_SIZE to be an immediate constant or a register, never a
memory operand. -/
def Operand.isLoad : Operand → Bool
  | .memFP _ => true
  | _ => false

/-- C1 (amended): provided the destination register is distinct from AX, and
the element size E is supplied as an immediate or in a register other than
AX, expanding `slice_size` (load_byte_size) leaves exactly (L * E) mod 2^64
in the destination register, with unsigned 64-bit wraparound and no overflow
check. -/
theorem slice_size_bytes (m : Machine) (name offset E L : Nat) (es : Operand)
    (register : Reg) (hL : m.mem (name + (8 + offset)) = L)
    (hL64 : L < 2 ^ 64) (hE : E < 2 ^ 64) (hreg : register ≠ Reg.AX)
    (hes : es = Operand.imm E ∨
      ∃ s : Reg, es = Operand.reg s ∧ s ≠ Reg.AX ∧ m.regs s = E) :
    (run m (slice_size name offset es register)).regs register =
      L * E % 2 ^ 64 := by
  rcases hes with rfl | ⟨s, rfl, hsA, hsE⟩
  · have h := slice_size_regs m name offset E L register hL hL64 hE hreg register
    simpa using h
  · simp [-Nat.reducePow, run, slice_size, slice_len, step, writeReg,
      evalOperand, hreg, Ne.symm hreg, hsA, hL, hsE, Nat.mod_eq_of_lt hL64,
      Nat.mod_eq_of_lt hE]

/-- C1 witness: the wraparound case L = 2^32, E = 2^32 on a concrete frame
gives 0 in BX. -/
theorem slice_size_bytes_witness :
    (run ⟨fun _ => 0, fun a => if a = 8 then 2 ^ 32 else 0⟩
        (slice_size 0 0 (Operand.imm (2 ^ 32)) Reg.BX)).regs Reg.BX = 0 := by
  have h := slice_size_bytes ⟨fun _ => 0, fun a => if a = 8 then 2 ^ 32 else 0⟩
    0 0 (2 ^ 32) (2 ^ 32) (Operand.imm (2 ^ 32)) Reg.BX (by decide) (by decide)
    (by decide) (by decide) (Or.inl rfl)
  simpa using h

/-- C1 counterexample: with length 5 in the length slot and element size 4
but destination register AX, the `slice_size` expansion leaves 16 = 4 * 4 in
AX rather than (5 * 4) mod 2^64 = 20, so the claim fails as stated when the
destination register is AX. -/
theorem slice_size_bytes_counterexample :
    (run ⟨fun _ => 0, fun a => if a = 8 then 5 else 0⟩
        (slice_size 0 0 (Operand.imm 4) Reg.AX)).regs Reg.AX = 16 ∧
    (16 : Nat) ≠ 5 * 4 % 2 ^ 64 := by
  constructor
  · decide
  · decide

/-- C2: the byte-size guarantee holds under the precondition that the
destination is distinct from AX, and with destination AX the expansion
leaves (E * E) mod 2^64 in AX instead of (L * E) mod 2^64, because the
length in the AX scratch register is overwritten by ELEMENT_SIZE before the
multiply. -/
theorem slice_size_ax_precondition (m : Machine) (name offset E L : Nat)
    (hL : m.mem (name + (8 + offset)) = L) (hL64 : L < 2 ^ 64)
    (hE : E < 2 ^ 64) :
    (∀ register : Reg, register ≠ Reg.AX →
      (run m (slice_size name offset (Operand.imm E) register)).regs register =
        L * E % 2 ^ 64) ∧
    (run m (slice_size name offset (Operand.imm E) Reg.AX)).regs Reg.AX =
      E * E % 2 ^ 64 := by
  constructor
  · intro register hreg
    have h := slice_size_regs m name offset E L register hL hL64 hE hreg register
    simpa using h
  · simp [-Nat.reducePow, run, slice_size, slice_len, step, writeReg,
      evalOperand, hL, Nat.mod_eq_of_lt hE]

/-- C2 witness: on a concrete frame with length 5, element size 4 and
destination AX, AX ends holding 4 * 4 mod 2^64. -/
theorem slice_size_ax_precondition_witness :
    (run ⟨fun _ => 0, fun a => if a = 8 then 5 else 0⟩
        (slice_size 0 0 (Operand.imm 4) Reg.AX)).regs Reg.AX =
      4 * 4 % 2 ^ 64 :=
  (slice_size_ax_precondition ⟨fun _ => 0, fun a => if a = 8 then 5 else 0⟩
    0 0 4 5 (by decide) (by decide) (by decide)).2

/-- C5: after `slice_size` runs, AX and DX retain nothing of their prior
values — they are overwritten with the low and high quadwords of
length * element_size respectively — and no register outside the
destination, AX and DX is modified. -/
theorem slice_size_clobbers (m : Machine) (name offset E L : Nat)
    (register : Reg) (hL : m.mem (name + (8 + offset)) = L)
    (hL64 : L < 2 ^ 64) (hE : E < 2 ^ 64) (hregA : register ≠ Reg.AX)
    (hregD : register ≠ Reg.DX) :
    (run m (slice_size name offset (Operand.imm E) register)).regs Reg.AX =
      L * E % 2 ^ 64 ∧
    (run m (slice_size name offset (Operand.imm E) register)).regs Reg.DX =
      L * E / 2 ^ 64 ∧
    (∀ r : Reg, r ≠ register → r ≠ Reg.AX → r ≠ Reg.DX →
      (run m (slice_size name offset (Operand.imm E) register)).regs r =
        m.regs r) := by
  have h := slice_size_regs m name offset E L register hL hL64 hE hregA
  refine ⟨?_, ?_, ?_⟩
  · have hAX := h Reg.AX
    simpa [Ne.symm hregA] using hAX
  · have hDX := h Reg.DX
    simpa [Ne.symm hregD] using hDX
  · intro r hr hrA hrD
    have hr' := h r
    simpa [hr, hrA, hrD] using hr'

/-- C5 witness: with length 5, element size 4 and destination BX on a
concrete frame, AX ends holding 20, DX ends holding 0, and CX is untouched. -/
theorem slice_size_clobbers_witness :
    (run ⟨fun _ => 9, fun a => if a = 8 then 5 else 0⟩
        (slice_size 0 0 (Operand.imm 4) Reg.BX)).regs Reg.AX =
      5 * 4 % 2 ^ 64 ∧
    (run ⟨fun _ => 9, fun a => if a = 8 then 5 else 0⟩
        (slice_size 0 0 (Operand.imm 4) Reg.BX)).regs Reg.DX =
      5 * 4 / 2 ^ 64 ∧
    (run ⟨fun _ => 9, fun a => if a = 8 then 5 else 0⟩
        (slice_size 0 0 (Operand.imm 4) Reg.BX)).regs Reg.CX = 9 := by
  have h := slice_size_clobbers ⟨fun _ => 9, fun a => if a = 8 then 5 else 0⟩
    0 0 4 5 Reg.BX (by decide) (by decide) (by decide) (by decide) (by decide)
  exact ⟨h.1, h.2.1, h.2.2 Reg.CX (by decide) (by decide) (by decide)⟩

/-- C10: for a destination distinct from AX and DX, after `slice_size` the
AX register holds the same low quadword of length * element_size as the
destination, and DX times 2^64 plus the destination reconstructs the exact
unwrapped product L * E. -/
theorem slice_size_full_product (m : Machine) (name offset E L : Nat)
    (register : Reg) (hL : m.mem (name + (8 + offset)) = L)
    (hL64 : L < 2 ^ 64) (hE : E < 2 ^ 64) (hregA : register ≠ Reg.AX)
    (hregD : register ≠ Reg.DX) :
    (run m (slice_size name offset (Operand.imm E) register)).regs Reg.AX =
      (run m (slice_size name offset (Operand.imm E) register)).regs register ∧
    (run m (slice_size name offset (Operand.imm E) register)).regs Reg.DX *
        2 ^ 64 +
      (run m (slice_size name offset (Operand.imm E) register)).regs register =
      L * E := by
  have h := slice_size_regs m name offset E L register hL hL64 hE hregA
  have hAX : (run m (slice_size name offset (Operand.imm E) register)).regs
      Reg.AX = L * E % 2 ^ 64 := by simpa [Ne.symm hregA] using h Reg.AX
  have hDX : (run m (slice_size name offset (Operand.imm E) register)).regs
      Reg.DX = L * E / 2 ^ 64 := by simpa [Ne.symm hregD] using h Reg.DX
  have hR : (run m (slice_size name offset (Operand.imm E) register)).regs
      register = L * E % 2 ^ 64 := by simpa using h register
  refine ⟨by rw [hAX, hR], ?_⟩
  rw [hDX, hR, Nat.mul_comm]
  exact Nat.div_add_mod (L * E) (2 ^ 64)

/-- C10 witness: with length 2^33 and element size 2^32 in a concrete frame,
BX holds the wrapped low quadword 0 while DX holds the high quadword 2, and
DX * 2^64 + BX equals the exact product 2^65. -/
theorem slice_size_full_product_witness :
    (run ⟨fun _ => 0, fun a => if a = 8 then 2 ^ 33 else 0⟩
        (slice_size 0 0 (Operand.imm (2 ^ 32)) Reg.BX)).regs Reg.DX * 2 ^ 64 +
      (run ⟨fun _ => 0, fun a => if a = 8 then 2 ^ 33 else 0⟩
        (slice_size 0 0 (Operand.imm (2 ^ 32)) Reg.BX)).regs Reg.BX =
      2 ^ 33 * 2 ^ 32 :=
  (slice_size_full_product ⟨fun _ => 0, fun a => if a = 8 then 2 ^ 33 else 0⟩
    0 0 (2 ^ 32) (2 ^ 33) Reg.BX (by decide) (by decide) (by decide)
    (by decide) (by decide)).2

/-- C6: replacing offset by offset + 8 in `slice_addr` or `slice_len` shifts
the effective source address of the emitted load by exactly +8 bytes and
changes nothing else about the expansion — each expansion is still the same
single MOVQ into the same destination register. -/
theorem offset_plus_eight_shifts (name offset : Nat) (register : Reg) :
    slice_addr name offset register =
      [Instr.movq (Operand.memFP (name + offset)) register] ∧
    slice_addr name (offset + 8) register =
      [Instr.movq (Operand.memFP (name + offset + 8)) register] ∧
    slice_len name offset register =
      [Instr.movq (Operand.memFP (name + (8 + offset))) register] ∧
    slice_len name (offset + 8) register =
      [Instr.movq (Operand.memFP (name + (8 + offset) + 8)) register] ∧
    loadsFrom (slice_addr name (offset + 8) register) =
      (loadsFrom (slice_addr name offset register)).map (fun a => a + 8) ∧
    loadsFrom (slice_len name (offset + 8) register) =
      (loadsFrom (slice_len name offset register)).map (fun a => a + 8) := by
  refine ⟨rfl, ?_, rfl, ?_, ?_, ?_⟩ <;>
    simp [slice_addr, slice_len, loadsFrom, Instr.loadsFrom] <;> omega

/-- C7: expansion is pure and order-independent — running `slice_addr` after
`slice_len` (in either order, with any registers) leaves the same value in
the destination as running it alone on the same frame, and the instructions
contributed by `slice_addr` within a combined sequence are exactly its own
expansion, with no hidden state. -/
theorem expansion_order_independent (m : Machine) (name offset : Nat)
    (r r2 : Reg) :
    (run m (slice_len name offset r2 ++ slice_addr name offset r)).regs r =
      (run m (slice_addr name offset r)).regs r ∧
    (run m (slice_addr name offset r ++ slice_len name offset r2)).regs r2 =
      (run m (slice_len name offset r2)).regs r2 ∧
    (slice_len name offset r2 ++ slice_addr name offset r).drop
        (slice_len name offset r2).length = slice_addr name offset r := by
  refine ⟨?_, ?_, rfl⟩ <;>
    simp [run, slice_addr, slice_len, step, writeReg, evalOperand]

/-- C8: every expansion reads only the addr quadword or the len quadword of
the triple: `slice_addr` loads solely from `name + offset`, while
`slice_len` and `slice_size` load solely from `name + (8 + offset)`; the
capacity quadword at +16 from the triple's base is never read, and no
expansion writes any memory. -/
theorem no_cap_read_no_mem_write (m : Machine) (name offset : Nat)
    (es : Operand) (register : Reg) (hes : es.isLoad = false) :
    loadsFrom (slice_addr name offset register) = [name + offset] ∧
    loadsFrom (slice_len name offset register) = [name + (8 + offset)] ∧
    loadsFrom (slice_size name offset es register) = [name + (8 + offset)] ∧
    (name + offset + 16) ∉ loadsFrom (slice_addr name offset register) ∧
    (name + offset + 16) ∉ loadsFrom (slice_len name offset register) ∧
    (name + offset + 16) ∉ loadsFrom (slice_size name offset es register) ∧
    (run m (slice_addr name offset register)).mem = m.mem ∧
    (run m (slice_len name offset register)).mem = m.mem ∧
    (run m (slice_size name offset es register)).mem = m.mem := by
  have hsz : loadsFrom (slice_size name offset es register) =
      [name + (8 + offset)] := by
    cases es with
    | imm v => simp [slice_size, slice_len, loadsFrom, Instr.loadsFrom]
    | reg s => simp [slice_size, slice_len, loadsFrom, Instr.loadsFrom]
    | memFP a => simp [Operand.isLoad] at hes
  refine ⟨rfl, rfl, hsz, ?_, ?_, ?_, run_mem _ m, run_mem _ m, run_mem _ m⟩
  · simp [slice_addr, loadsFrom, Instr.loadsFrom]
  · simp [slice_len, loadsFrom, Instr.loadsFrom]
    omega
  · rw [hsz]
    simp
    omega

/-- C8 witness: the statement instantiated on a concrete frame, argument
base 0, offset 0, immediate element size 8 and destination BX: the three
expansions load only from offsets 0 and 8, never from 16, and leave all
memory unchanged. -/
theorem no_cap_read_no_mem_write_witness :
    loadsFrom (slice_addr 0 0 Reg.BX) = [0 + 0] ∧
    loadsFrom (slice_len 0 0 Reg.BX) = [0 + (8 + 0)] ∧
    loadsFrom (slice_size 0 0 (Operand.imm 8) Reg.BX) = [0 + (8 + 0)] ∧
    (0 + 0 + 16) ∉ loadsFrom (slice_addr 0 0 Reg.BX) ∧
    (0 + 0 + 16) ∉ loadsFrom (slice_len 0 0 Reg.BX) ∧
    (0 + 0 + 16) ∉ loadsFrom (slice_size 0 0 (Operand.imm 8) Reg.BX) ∧
    (run ⟨fun _ => 0, fun _ => 3⟩ (slice_addr 0 0 Reg.BX)).mem =
      (⟨fun _ => 0, fun _ => 3⟩ : Machine).mem ∧
    (run ⟨fun _ => 0, fun _ => 3⟩ (slice_len 0 0 Reg.BX)).mem =
      (⟨fun _ => 0, fun _ => 3⟩ : Machine).mem ∧
    (run ⟨fun _ => 0, fun _ => 3⟩ (slice_size 0 0 (Operand.imm 8) Reg.BX)).mem =
      (⟨fun _ => 0, fun _ => 3⟩ : Machine).mem :=
  no_cap_read_no_mem_write ⟨fun _ => 0, fun _ => 3⟩ 0 0 (Operand.imm 8) Reg.BX
    (by decide)

/-- C9: each macro expands to a fixed straight-line sequence of MOVQ/MULQ
instructions determined by its textual arguments alone — one MOVQ for
`slice_addr` and `slice_len`, four instructions for `slice_size` — with no
branch, comparison or check of any kind; on any frame whatsoever, including
one that holds no slice triple, the loads simply fetch whatever quadword is
at the computed offset, so a wrong frame yields silently wrong values with
no detection, recovery or diagnostic. -/
theorem straight_line_no_checks (m : Machine) (name offset : Nat)
    (es : Operand) (register : Reg) :
    slice_addr name offset register =
      [Instr.movq (Operand.memFP (name + offset)) register] ∧
    slice_len name offset register =
      [Instr.movq (Operand.memFP (name + (8 + offset))) register] ∧
    slice_size name offset es register =
      [Instr.movq (Operand.memFP (name + (8 + offset))) Reg.AX,
       Instr.movq es register,
       Instr.mulq register,
       Instr.movq (Operand.reg Reg.AX) register] ∧
    (run m (slice_addr name offset register)).regs register =
      m.mem (name + offset) % 2 ^ 64 ∧
    (run m (slice_len name offset register)).regs register =
      m.mem (name + (8 + offset)) % 2 ^ 64 := by
  refine ⟨rfl, rfl, rfl, ?_, ?_⟩ <;>
    simp [run, slice_addr, slice_len, step, writeReg, evalOperand]
